import Mathlib

/-!
Verification of the SlicerMONAIViz pipeline-execution cache and its
surrounding table operations, as a shallow embedding of
`src/MONAIViz/MONAIViz.py`, `src/SlicerMONAIViz.py` and
`src/SlicerMONAIVizLib/utils.py`.

Python strings are modelled by Lean `String`.  The Python string
operations used by the source (`t[-1] == "d"`, `s.endswith(...)`,
`pat in s`, `s.split(".")`, `sorted(...)`) are given executable
character-list implementations below so that concrete instances of the
theorems evaluate inside the kernel.
-/

namespace MonaiViz

/-- Comparison of two character lists by code point, the order Python
uses for `sorted` on strings (`True` when the first argument is less
than or equal to the second in lexicographic code-point order). -/
def strLeAux : List Char → List Char → Bool
  | [], _ => true
  | _ :: _, [] => false
  | a :: as, b :: bs =>
    if a.toNat < b.toNat then true
    else if b.toNat < a.toNat then false
    else strLeAux as bs

/-- Lexicographic code-point comparison on strings, Python's `<=`. -/
def strLe (a b : String) : Bool := strLeAux a.data b.data

/-- Python `t[-1] == c` for a nonempty string `t`. -/
def endsWithChar (s : String) (c : Char) : Bool :=
  match s.data.getLast? with
  | some x => x == c
  | none => false

/-- Python `s.endswith(sfx)`. -/
def strEndsWith (s sfx : String) : Bool :=
  List.isPrefixOf sfx.data.reverse s.data.reverse

/-- Containment test on character lists: `pat` occurs contiguously. -/
def containsSubAux : List Char → List Char → Bool
  | [], pat => List.isPrefixOf pat []
  | c :: rest, pat => List.isPrefixOf pat (c :: rest) || containsSubAux rest pat

/-- Python `pat in s` substring containment. -/
def strContainsSub (s pat : String) : Bool := containsSubAux s.data pat.data

/-- Python `s.split(".")` on character lists. -/
def splitOnDotAux : List Char → List Char → List (List Char)
  | [], acc => [acc.reverse]
  | c :: rest, acc =>
    if c == '.' then acc.reverse :: splitOnDotAux rest []
    else splitOnDotAux rest (c :: acc)

/-- Python `".".join(parts)` on character lists. -/
def joinDotAux : List (List Char) → List Char
  | [] => []
  | [p] => p
  | p :: ps => p ++ '.' :: joinDotAux ps

/-- Python `".".join(s.split(".")[:3])`, used for the catalog category. -/
def firstThreeComponents (s : String) : String :=
  String.mk (joinDotAux ((splitOnDotAux s.data []).take 3))

/-- Propositional form of `strLe`, for use with Mathlib's sorting. -/
def strLeRel (a b : String) : Prop := strLe a b = true

instance : DecidableRel strLeRel := fun a b =>
  inferInstanceAs (Decidable (strLe a b = true))

/-- Python `sorted` on a list of strings. -/
def sortStrings (l : List String) : List String := List.insertionSort strLeRel l

end MonaiViz

namespace MonaiViz

/-- One row of the pipeline table: the activation checkbox (column 0),
the target transform name (column 2) and its argument string
(column 3) of `MONAIVizWidget`'s `transformTable`. -/
structure Row where
  active : Bool
  name : String
  args : String
deriving DecidableEq, Inhabited, Repr

/-- The running value threaded through the pipeline: either a single
dictionary of tensors or a list of such dictionaries ("batched"
results); the Python code dispatches on `isinstance(d, list)`. -/
inductive Data (α : Type) where
  | one (x : α)
  | many (l : List α)
deriving DecidableEq, Repr

/-- State of `TransformCtx` from `src/MONAIViz/MONAIViz.py`.  The
dictionary element type, the tensor-shape type and the affine type are
abstract parameters; `d` holds the cached result, `last_exp` the
expression of the last transform applied, `next_idx`/`next_exp` the
frontier, `channel` the channel-first flag, `bidx` the batch cursor,
and the two `original_*` fields the capture made on first execution. -/
structure TransformCtx (α Sh Af : Type) where
  d : Option (Data α)
  last_exp : String
  next_idx : Nat
  next_exp : String
  channel : Bool
  bidx : Nat
  original_spatial_shape : Option Sh
  original_affine : Option Af
deriving DecidableEq, Repr

variable {α Sh Af E : Type}

/-- The `__init__` state of `TransformCtx`. -/
def TransformCtx.init : TransformCtx α Sh Af :=
  { d := none
    last_exp := ""
    next_idx := 0
    next_exp := ""
    channel := false
    bidx := 0
    original_spatial_shape := none
    original_affine := none }

/-- Python `TransformCtx.reset`, which re-runs `__init__`. -/
def TransformCtx.reset (_ : TransformCtx α Sh Af) : TransformCtx α Sh Af :=
  TransformCtx.init

/-- Python `TransformCtx.valid`: `False if self.d is None or
self.next_idx == 0 else True`. -/
def TransformCtx.valid (c : TransformCtx α Sh Af) : Bool :=
  if c.d.isNone || c.next_idx == 0 then false else true

/-- Python `TransformCtx.valid_for_next`: `True if exp and
self.next_exp and exp == self.next_exp else False` (a Python string is
truthy when nonempty). -/
def TransformCtx.valid_for_next (c : TransformCtx α Sh Af) (exp : String) : Bool :=
  if exp != "" && c.next_exp != "" && exp == c.next_exp then true else false

/-- Selection of the element the cache operates on: the Python
expression `d[self.bidx % len(d)]` when `d` is a list (`none` models
the `ZeroDivisionError` on an empty list, which `set_d` can never
store) and the dictionary itself otherwise. -/
def Data.atCursor : Data α → Nat → Option α
  | .one x, _ => some x
  | .many l, b => l[b % l.length]?

/-- Python `MONAIVizWidget.get_exp`: the constructor-call expression
built from a table row, `monai.transforms.<name>(<args>)`. -/
def get_exp (table : List Row) (r : Nat) : String :=
  match table[r]? with
  | some row => "monai.transforms." ++ row.name ++ "(" ++ row.args ++ ")"
  | none => ""

/-- Python `TransformCtx.get_d`.  Returns the updated context (the
source mutates `self`) together with the dictionary handed to the
caller: the cached value when the cache survives the validity checks,
the caller's freshly built dictionary `d` otherwise. -/
def TransformCtx.get_d (c : TransformCtx α Sh Af) (exp : Option String) (d : α) :
    TransformCtx α Sh Af × Data α :=
  match exp with
  | none =>
    if c.valid then
      match c.d with
      | some (.many l) =>
        (c, match l[c.bidx % l.length]? with
            | some x => .one x
            | none => .many l)
      | some (.one x) => (c, .one x)
      | none => (c, .one d)
    else (c, .one d)
  | some e =>
    let c1 := if c.valid_for_next e then c else c.reset
    if c1.valid then
      match c1.d with
      | some dd => (c1, dd)
      | none => (c1, .one d)
    else (c1, .one d)

/-- Python `TransformCtx.set_d` for the configured image key, with the
key tensor's shape and affine extraction abstracted into `shape` and
`affine`: stores the new dictionary and expression, captures the
original shape and affine on first execution, and latches the
channel-first flag when the expression mentions `EnsureChannelFirstd`. -/
def TransformCtx.set_d (shape : α → Sh) (affine : α → Af)
    (c : TransformCtx α Sh Af) (dN : Data α) (exp : String) : TransformCtx α Sh Af :=
  let kt := dN.atCursor c.bidx
  { c with
    original_spatial_shape :=
      match c.original_spatial_shape with
      | some s => some s
      | none => kt.map shape
    original_affine :=
      match c.original_spatial_shape with
      | some _ => c.original_affine
      | none => kt.map affine
    channel := c.channel || strContainsSub exp "EnsureChannelFirstd"
    d := some dN
    last_exp := exp }

/-- Python `TransformCtx.set_next`: on the same `(index, expression)`
pair the batch cursor advances, otherwise the frontier moves. -/
def TransformCtx.set_next (c : TransformCtx α Sh Af) (next_idx : Nat)
    (next_exp : String) : TransformCtx α Sh Af :=
  if c.next_idx == next_idx && c.next_exp == next_exp then
    { c with bidx := c.bidx + 1 }
  else
    { c with next_idx := next_idx, next_exp := next_exp }

/-- One iteration's data step in `onRunTransform`: `d = [t(dx) for dx
in d]` when the running value is a list, `d = t(d)` otherwise, where
`t` is the evaluated transform (which may raise). -/
def applyT (t : α → Except E α) : Data α → Except E (Data α)
  | .one x => (t x).map .one
  | .many l => (l.mapM t).map .many

/-- Sequential functional application of the transforms of the given
rows to a running dictionary (the loop of `onRunTransform` with the
cache bookkeeping erased). -/
def applyRows (tf : String → α → Except E α) (table : List Row) :
    List Nat → Data α → Except E (Data α)
  | [], d => .ok d
  | r :: rs, d =>
    match applyT (tf (get_exp table r)) d with
    | .error e => .error e
    | .ok d2 => applyRows tf table rs d2

/-- Result of the row loop of `onRunTransform`: on success the updated
context, running dictionary and the list of rows actually executed (in
order); on a raised exception the error together with the context as
already mutated (Python's `self.ctx` keeps the partial updates). -/
inductive LoopResult (α Sh Af E : Type) where
  | ok (c : TransformCtx α Sh Af) (d : Data α) (executed : List Nat)
  | err (e : E) (c : TransformCtx α Sh Af)
deriving DecidableEq, Repr

/-- The `for row in range(self.ctx.next_idx, current_row + 1)` loop of
`onRunTransform`: inactive rows are skipped (only their status icon is
touched), active rows evaluate their expression, apply the transform
to the running dictionary and store the result via `set_d`. -/
def runRows (tf : String → α → Except E α) (shape : α → Sh) (affine : α → Af)
    (table : List Row) : List Nat → TransformCtx α Sh Af → Data α → LoopResult α Sh Af E
  | [], c, d => .ok c d []
  | r :: rs, c, d =>
    if (table[r]?.getD default).active then
      match applyT (tf (get_exp table r)) d with
      | .error e => .err e c
      | .ok d2 =>
        match runRows tf shape affine table rs
            (c.set_d shape affine d2 (get_exp table r)) d2 with
        | .ok c2 d3 ex => .ok c2 d3 (r :: ex)
        | .err e c2 => .err e c2
    else runRows tf shape affine table rs c d

/-- Result of a whole `onRunTransform` call: the final context, the
final running dictionary, the rows executed, and the batch index the
display (`get_tensor`) reads from the cached list, when there is one;
on a raised exception, the error and the context as mutated so far. -/
inductive RunResult (α Sh Af E : Type) where
  | ok (c : TransformCtx α Sh Af) (d : Data α) (executed : List Nat) (disp : Option Nat)
  | err (e : E) (c : TransformCtx α Sh Af)
deriving DecidableEq, Repr

/-- The frontier recorded after a successful run of row `k`: `k + 1`
when another row follows, else `k` (the `next_idx`/`next_exp`
computation of `onRunTransform`). -/
def nextIdxAfter (table : List Row) (k : Nat) : Nat :=
  if k + 1 < table.length then k + 1 else k

/-- The batch index `get_tensor` reads for display,
`self.bidx % len(self.d)`, defined when the cached value is a
(nonempty) list. -/
def dispOf (c : TransformCtx α Sh Af) : Option Nat :=
  match c.d with
  | some (.many l) => if l.length == 0 then none else some (c.bidx % l.length)
  | _ => none

/-- The conditional row loop of `onRunTransform`: the pending rows run
only when the current expression is not the last applied one
(`if self.ctx.last_exp != current_exp`). -/
def runStep (tf : String → α → Except E α) (shape : α → Sh) (affine : α → Af)
    (table : List Row) (k : Nat) (p : TransformCtx α Sh Af × Data α) :
    LoopResult α Sh Af E :=
  if p.1.last_exp ≠ get_exp table k then
    runRows tf shape affine table (List.range' p.1.next_idx (k + 1 - p.1.next_idx)) p.1 p.2
  else
    .ok p.1 p.2 []

/-- Python `MONAIVizWidget.onRunTransform` for selected row `k`, with
the UI, scene and printing erased: fetch the dictionary through
`get_d`, run the pending active rows when the current expression is
not the last applied one, compute the next frontier (`k+1`, or `k`
when `k` is the last row), read the display batch index from the
cached data, and finally `set_next`.  `tf` is the semantics of
`eval(exp)` followed by the call (either may raise), `d0` the
dictionary built by `prepare_dict`. -/
def onRunTransform (tf : String → α → Except E α) (shape : α → Sh) (affine : α → Af)
    (table : List Row) (k : Nat) (c : TransformCtx α Sh Af) (d0 : α) :
    RunResult α Sh Af E :=
  match runStep tf shape affine table k (c.get_d (some (get_exp table k)) d0) with
  | .err e c2 => .err e c2
  | .ok c2 d2 ex =>
    .ok (c2.set_next (nextIdxAfter table k) (get_exp table (nextIdxAfter table k)))
      d2 ex (dispOf c2)

/-- Effect of `MONAIVizWidget.onEditTransform` on the cache when the
argument dialog committed a changed expression for `row`: the cache is
cleared when the row precedes the frontier or is the last table row. -/
def onEditTransformCache (c : TransformCtx α Sh Af) (rowCount row : Nat)
    (oldExp newExp : String) : TransformCtx α Sh Af :=
  if newExp ≠ oldExp then
    if row < c.next_idx ∨ row = rowCount - 1 then c.reset else c
  else c

end MonaiViz

namespace MonaiViz

/-- The fixed exclusion list of `onAddTransform`/`onLoadTransform`:
transform names that end in `d` without being dictionary-style. -/
def dictExclusions : List String :=
  ["AffineGrid", "Decollated", "RandAffineGrid", "RandDeformGrid"]

/-- The dictionary-style heuristic shared by `onAddTransform` and
`onLoadTransform`: `t[-1] == "d"` and `t` not in the exclusion list. -/
def isDictStyleName (t : String) : Bool :=
  endsWithChar t 'd' && !(dictExclusions.contains t)

/-- A single-quote character as a string (used by the generated
`keys=[...]` expression). -/
def sq : String := String.singleton (Char.ofNat 39)

/-- The default argument string suggested by
`MONAIVizWidget.onAddTransform` for a transform named `t`, given the
configured image and label key settings: `keys=['<image>', '<label>']`
for dictionary-style names, empty otherwise. -/
def defaultTransformArgs (t imageKey labelKey : String) : String :=
  if endsWithChar t 'd' then
    if !(dictExclusions.contains t) then
      "keys=[" ++ sq ++ imageKey ++ sq ++ ", " ++ sq ++ labelKey ++ sq ++ "]"
    else ""
  else ""

/-- Python `MONAIVizWidget.addTransform` restricted to its effect on
the table contents, for an explicit nonnegative position: insert a row
with the given name and argument string (`active` is the default
`True` on the import path). -/
def addTransformRow (table : List Row) (pos : Nat) (t v : String) : List Row :=
  table.insertIdx pos { active := true, name := t, args := v }

/-- Python `MONAIVizWidget.onSaveTransform`: the exported JSON object
as the ordered list of `(row index, name, args)` entries (JSON keys
are the stringified indices; `json.dump`/`json.load` round-trips them
through `int(idx)`). -/
def onSaveTransform (table : List Row) : List (Nat × String × String) :=
  table.enum.map (fun p => (p.1, p.2.name, p.2.args))

/-- Python `MONAIVizWidget.onLoadTransform`: each imported entry keeps
its argument string only when the dictionary-style heuristic accepts
the name, and is inserted at its stored index. -/
def onLoadTransform (entries : List (Nat × String × String)) (table : List Row) :
    List Row :=
  entries.foldl
    (fun tbl e =>
      let t := e.2.1
      let v := if isDictStyleName t then e.2.2 else ""
      addTransformRow tbl e.1 t v)
    table

/-- A member of a Python module as seen by `inspect.getmembers`: the
flags and attributes `get_class_of_subclass` consults (`inspect.isclass`,
`inspect.isabstract`, `__name__`, `__module__`, the `__name__`s of the
direct bases). -/
structure PyObj where
  isClass : Bool
  name : String
  module : String
  bases : List String
  isAbstract : Bool
deriving DecidableEq, Inhabited, Repr

/-- The fully qualified class name `f"{o.__module__}.{o.__name__}"`. -/
def qualName (o : PyObj) : String := o.module ++ "." ++ o.name

/-- Python `is_subclass` from `src/SlicerMONAIVizLib/utils.py`: `o` is
a class, the member name is not the base-class name itself, and the
base-class name occurs among the names of `o`'s direct bases. -/
def is_subclass (n : String) (o : PyObj) (base_c : String) : Bool :=
  o.isClass && n != base_c && o.bases.contains base_c

/-- The metadata record `get_class_of_subclass` stores per qualified
class name (source keys `name`, `alias`, `class`, `module`,
`dictionary`, `base_class`, `category`). -/
structure TMeta where
  name : String
  aliasNames : List String
  cls : String
  module : String
  dictionary : Bool
  base_class : String
  category : String
deriving DecidableEq, Repr

/-- The fresh metadata record built when a qualified name is first
inserted into the result dictionary. -/
def mkMeta (n : String) (o : PyObj) (bc : String) : TMeta :=
  { name := o.name
    aliasNames := [n]
    cls := qualName o
    module := o.module
    dictionary := strEndsWith o.module "dictionary"
    base_class := bc
    category := firstThreeComponents o.module }

/-- Lookup in the insertion-ordered result dictionary (`res.get(cp)`). -/
def lookupMeta : List (String × TMeta) → String → Option TMeta
  | [], _ => none
  | p :: ps, cp => if p.1 == cp then some p.2 else lookupMeta ps cp

/-- In-place alias append, `res[cp]["alias"].append(n)`. -/
def appendAliasTo (res : List (String × TMeta)) (cp n : String) :
    List (String × TMeta) :=
  res.map (fun p =>
    if p.1 == cp then (p.1, { p.2 with aliasNames := p.2.aliasNames ++ [n] })
    else p)

/-- The body of the member loop of `get_class_of_subclass`: skip
non-classes and abstract classes, find the first matching base class,
then either append the member name as an alias of an already-recorded
qualified name or insert a fresh record. -/
def catalogStep (base_classes : List String) (res : List (String × TMeta))
    (m : String × PyObj) : List (String × TMeta) :=
  if !m.2.isClass || m.2.isAbstract then res
  else
    match base_classes.find? (fun bc => is_subclass m.1 m.2 bc) with
    | none => res
    | some bc =>
      let cp := qualName m.2
      match lookupMeta res cp with
      | some _ => appendAliasTo res cp m.1
      | none => res ++ [(cp, mkMeta m.1 m.2 bc)]

/-- Python `get_class_of_subclass`: fold the member list into the
result dictionary, then rebuild it with keys sorted and each alias
list sorted. -/
def get_class_of_subclass (members : List (String × PyObj))
    (base_classes : List String) : List (String × TMeta) :=
  let res := members.foldl (catalogStep base_classes) []
  (sortStrings (res.map Prod.fst)).filterMap (fun cp =>
    (lookupMeta res cp).map (fun m =>
      (cp, { m with aliasNames := sortStrings m.aliasNames })))

/-- Python `MonaiUtils.list_transforms`, which fixes the base-class
name set. -/
def list_transforms (members : List (String × PyObj)) : List (String × TMeta) :=
  get_class_of_subclass members ["Transform", "MapTransform"]

/-- The condition under which `get_class_of_subclass` records a
member: it is a (concrete) class and some base-class name passes
`is_subclass` — which also requires the member name to differ from
that base-class name. -/
def catalogHit (base_classes : List String) (m : String × PyObj) : Bool :=
  !(!m.2.isClass || m.2.isAbstract)
    && (base_classes.find? (fun bc => is_subclass m.1 m.2 bc)).isSome

/-- The alias list recorded for a qualified name (empty when absent). -/
def aliasList (res : List (String × TMeta)) (cp : String) : List String :=
  match lookupMeta res cp with
  | some m => m.aliasNames
  | none => []

/-- Member list of a module holding `A(Transform)`, `B(MapTransform)`
and `C(object)`, in the name order `inspect.getmembers` yields. -/
def abcMembers : List (String × PyObj) :=
  [("A", { isClass := true, name := "A", module := "m", bases := ["Transform"], isAbstract := false }),
   ("B", { isClass := true, name := "B", module := "m", bases := ["MapTransform"], isAbstract := false }),
   ("C", { isClass := true, name := "C", module := "m", bases := ["object"], isAbstract := false })]

/-- Catalog record expected for `A`. -/
def metaA : TMeta :=
  { name := "A", aliasNames := ["A"], cls := "m.A", module := "m", dictionary := false, base_class := "Transform", category := "m" }

/-- Catalog record expected for `B`. -/
def metaB : TMeta :=
  { name := "B", aliasNames := ["B"], cls := "m.B", module := "m", dictionary := false, base_class := "MapTransform", category := "m" }

/-- The catalog expected for `abcMembers`: exactly `A` and `B`. -/
def abcExpected : List (String × TMeta) := [("m.A", metaA), ("m.B", metaB)]

/-- A member list whose single entry is a concrete class that is
itself named `Transform` while its direct base class is also named
`Transform` (for example a subclass re-exported under the base-class
name). -/
def selfNamedMember : List (String × PyObj) :=
  [("Transform", { isClass := true, name := "Transform", module := "m", bases := ["Transform"], isAbstract := false })]

end MonaiViz

namespace MonaiViz

/-- The `affine[:-1, :-1]` upper-left linear block of an
`(n+1) x (n+1)` affine matrix (`_m_key = (slice(-1), slice(-1))`). -/
def linearBlock {n : Nat} (A : Matrix (Fin (n + 1)) (Fin (n + 1)) ℝ) :
    Matrix (Fin n) (Fin n) ℝ :=
  A.submatrix Fin.castSucc Fin.castSucc

/-- The `origin = affine[_origin_key]` computation of
`TransformCtx.get_tensor_osd`: the last column of the affine without
its homogeneous row. -/
def osdOrigin {n : Nat} (A : Matrix (Fin (n + 1)) (Fin (n + 1)) ℝ) : Fin n → ℝ :=
  fun i => A i.castSucc (Fin.last n)

/-- The `spacing = np.linalg.norm(affine[_m_key] @ np.eye(dim), axis=0)`
computation: Euclidean norm of each column of the linear block
multiplied by the identity. -/
noncomputable def osdSpacing {n : Nat} (A : Matrix (Fin (n + 1)) (Fin (n + 1)) ℝ) :
    Fin n → ℝ :=
  fun j => Real.sqrt (∑ i, ((linearBlock A * (1 : Matrix (Fin n) (Fin n) ℝ)) i j) ^ 2)

/-- The `direction = affine[_m_key] @ np.diag(1 / spacing)` computation. -/
noncomputable def osdDirection {n : Nat} (A : Matrix (Fin (n + 1)) (Fin (n + 1)) ℝ) :
    Matrix (Fin n) (Fin n) ℝ :=
  linearBlock A * Matrix.diagonal (fun j => 1 / osdSpacing A j)

/-- Python `TransformCtx.get_tensor_osd` from `src/MONAIViz/MONAIViz.py`
for `scale=False`, on the key tensor's affine matrix (in this variant
the RAS/LPS conversion is commented out, and `dim = affine.shape[0] - 1`). -/
noncomputable def get_tensor_osd {n : Nat} (A : Matrix (Fin (n + 1)) (Fin (n + 1)) ℝ) :
    (Fin n → ℝ) × (Fin n → ℝ) × Matrix (Fin n) (Fin n) ℝ :=
  (osdOrigin A, osdSpacing A, osdDirection A)

end MonaiViz

namespace MonaiViz

variable {α Sh Af E : Type}


/-- The pipeline row used by the C5 counterexample: a non-dictionary
transform with a nonempty argument string. -/
def loadImageRow : Row := { active := true, name := "LoadImage", args := "image_only=True" }

/-- The row produced by importing one exported table row: imports mark
rows active and keep the argument string only for dictionary-style
names. -/
def importedRow (r : Row) : Row :=
  { active := true, name := r.name,
    args := if isDictStyleName r.name then r.args else "" }

/-- A concrete transform semantics for witness instances: every
expression evaluates to the successor function on a numeric dictionary
model. -/
def tfW : String → Nat → Except Unit Nat := fun _ x => .ok (x + 1)

/-- A concrete transform semantics that fails on every expression
except row 0's, for the error-path instances. -/
def tfF : String → Nat → Except Unit Nat :=
  fun s x => if s == "monai.transforms.A()" then .ok (x + 1) else .error ()

/-- A concrete three-row table with an inactive middle row. -/
def c4tbl : List Row :=
  [{ active := true, name := "A", args := "" },
   { active := false, name := "B", args := "" },
   { active := true, name := "C", args := "" }]

/-- The context produced by running row 2 of `c4tbl` from the empty
state with `tfW` on the initial dictionary `0`. -/
def cRun : TransformCtx Nat Nat Nat :=
  { d := some (.one 2), last_exp := "monai.transforms.C()", next_idx := 2,
    next_exp := "monai.transforms.C()", channel := false, bidx := 0,
    original_spatial_shape := some 1, original_affine := some 1 }

/-- A concrete two-row table with both rows active. -/
def c6tbl : List Row :=
  [{ active := true, name := "A", args := "" },
   { active := true, name := "B", args := "" }]

/-- The context left behind when running row 1 of `c6tbl` from the
empty state with `tfF`: row 0 succeeded and was stored, row 1 raised. -/
def cMid : TransformCtx Nat Nat Nat :=
  { d := some (.one 1), last_exp := "monai.transforms.A()", next_idx := 0,
    next_exp := "", channel := false, bidx := 0,
    original_spatial_shape := some 1, original_affine := some 1 }

/-- A two-row table for the repeat-invocation instance. -/
def c2tbl : List Row :=
  [{ active := true, name := "A", args := "" },
   { active := true, name := "B", args := "" }]

/-- A context that has already run the last row of `c2tbl` and caches
a two-element batched result. -/
def c2ctx : TransformCtx Nat Nat Nat :=
  { d := some (.many [10, 20]), last_exp := "monai.transforms.B()", next_idx := 1,
    next_exp := "monai.transforms.B()", channel := false, bidx := 0,
    original_spatial_shape := some 1, original_affine := some 1 }

/-- A concrete populated context used by witness instances. -/
def ctxA : TransformCtx Nat Nat Nat :=
  { d := some (.one 5), last_exp := "x", next_idx := 2, next_exp := "y",
    channel := false, bidx := 0, original_spatial_shape := none,
    original_affine := none }

/-- A second concrete populated context used by witness instances. -/
def ctxB : TransformCtx Nat Nat Nat :=
  { d := some (.one 5), last_exp := "x", next_idx := 1, next_exp := "y",
    channel := true, bidx := 4, original_spatial_shape := some 9,
    original_affine := some 8 }

theorem strLeAux_total (a b : List Char) :
    strLeAux a b = true ∨ strLeAux b a = true := by
  induction a generalizing b with
  | nil => left; rfl
  | cons x xs ih =>
    cases b with
    | nil => right; rfl
    | cons y ys =>
      by_cases h1 : x.toNat < y.toNat
      · left; simp [strLeAux, h1]
      · by_cases h2 : y.toNat < x.toNat
        · right; simp [strLeAux, h2]
        · rcases ih ys with h | h
          · left; simp [strLeAux, h1, h2, h]
          · right; simp [strLeAux, h1, h2, h]

theorem strLeAux_trans (a b c : List Char) (hab : strLeAux a b = true)
    (hbc : strLeAux b c = true) : strLeAux a c = true := by
  induction a generalizing b c with
  | nil => rfl
  | cons x xs ih =>
    cases b with
    | nil => simp [strLeAux] at hab
    | cons y ys =>
      cases c with
      | nil => simp [strLeAux] at hbc
      | cons z zs =>
        simp only [strLeAux] at hab hbc ⊢
        by_cases h1 : x.toNat < y.toNat
        · by_cases h2 : y.toNat < z.toNat
          · have hx : x.toNat < z.toNat := by omega
            simp [hx]
          · simp only [if_neg h2] at hbc
            by_cases h5 : z.toNat < y.toNat
            · simp [h5] at hbc
            · have hx : x.toNat < z.toNat := by omega
              simp [hx]
        · simp only [if_neg h1] at hab
          by_cases h4 : y.toNat < x.toNat
          · simp [h4] at hab
          · simp only [if_neg h4] at hab
            by_cases h2 : y.toNat < z.toNat
            · have hx : x.toNat < z.toNat := by omega
              simp [hx]
            · simp only [if_neg h2] at hbc
              by_cases h5 : z.toNat < y.toNat
              · simp [h5] at hbc
              · simp only [if_neg h5] at hbc
                have hx3 : ¬ x.toNat < z.toNat := by omega
                have hz3 : ¬ z.toNat < x.toNat := by omega
                simp only [if_neg hx3, if_neg hz3]
                exact ih ys zs hab hbc

instance : IsTotal String strLeRel :=
  ⟨fun a b => strLeAux_total a.data b.data⟩

instance : IsTrans String strLeRel :=
  ⟨fun a b c => strLeAux_trans a.data b.data c.data⟩


theorem sortStrings_sorted (l : List String) :
    List.Sorted strLeRel (sortStrings l) :=
  List.sorted_insertionSort strLeRel l

theorem sortStrings_perm (l : List String) : (sortStrings l).Perm l :=
  List.perm_insertionSort strLeRel l


theorem set_d_frame (shape : α → Sh) (affine : α → Af)
    (c : TransformCtx α Sh Af) (dN : Data α) (exp : String) :
    (c.set_d shape affine dN exp).next_idx = c.next_idx
    ∧ (c.set_d shape affine dN exp).next_exp = c.next_exp
    ∧ (c.set_d shape affine dN exp).bidx = c.bidx := by
  simp [TransformCtx.set_d]

theorem set_next_fields (c : TransformCtx α Sh Af) (i : Nat) (e : String) :
    (c.set_next i e).next_idx = i ∧ (c.set_next i e).next_exp = e := by
  unfold TransformCtx.set_next
  by_cases h : (c.next_idx == i && c.next_exp == e) = true
  · have hand := (Bool.and_eq_true _ _).mp h
    have h1 : c.next_idx = i := by simpa using hand.1
    have h2 : c.next_exp = e := by simpa using hand.2
    simp [h, h1, h2]
  · simp [h]

theorem get_exp_ne_empty (table : List Row) (k : Nat) (h : k < table.length) :
    get_exp table k ≠ "" := by
  unfold get_exp
  have hk : table[k]? = some (table.get ⟨k, h⟩) := by
    simp [List.getElem?_eq_getElem h]
  rw [hk]
  intro heq
  have h2 := congrArg String.data heq
  simp only [String.data_append] at h2
  simp at h2

theorem runRows_ok_spec (tf : String → α → Except E α) (shape : α → Sh)
    (affine : α → Af) (table : List Row) :
    ∀ (rows : List Nat) (c : TransformCtx α Sh Af) (d : Data α)
      (c2 : TransformCtx α Sh Af) (d2 : Data α) (ex : List Nat),
      runRows tf shape affine table rows c d = .ok c2 d2 ex →
      ex = rows.filter (fun r => (table[r]?.getD default).active)
      ∧ applyRows tf table ex d = .ok d2
      ∧ c2.next_idx = c.next_idx ∧ c2.next_exp = c.next_exp ∧ c2.bidx = c.bidx := by
  intro rows
  induction rows with
  | nil =>
    intro c d c2 d2 ex h
    simp only [runRows] at h
    cases h
    simp [applyRows]
  | cons r rs ih =>
    intro c d c2 d2 ex h
    simp only [runRows] at h
    by_cases ha : (table[r]?.getD default).active = true
    · rw [if_pos ha] at h
      cases hap : applyT (tf (get_exp table r)) d with
      | error e => simp only [hap] at h; cases h
      | ok dN =>
        simp only [hap] at h
        cases hrec : runRows tf shape affine table rs
            (c.set_d shape affine dN (get_exp table r)) dN with
        | ok c3 d3 ex3 =>
          simp only [hrec] at h
          cases h
          obtain ⟨hex, happ, hni, hne, hbx⟩ := ih _ _ _ _ _ hrec
          refine ⟨by simp [ha, hex], ?_, ?_, ?_, ?_⟩
          · simp only [applyRows, hap]
            exact happ
          · rw [hni, (set_d_frame shape affine c dN (get_exp table r)).1]
          · rw [hne, (set_d_frame shape affine c dN (get_exp table r)).2.1]
          · rw [hbx, (set_d_frame shape affine c dN (get_exp table r)).2.2]
        | err e c3 => simp only [hrec] at h; cases h
    · rw [if_neg ha] at h
      obtain ⟨hex, happ, hni, hne, hbx⟩ := ih _ _ _ _ _ h
      refine ⟨?_, happ, hni, hne, hbx⟩
      simp [ha, hex]

theorem runRows_err_spec (tf : String → α → Except E α) (shape : α → Sh)
    (affine : α → Af) (table : List Row) :
    ∀ (rows : List Nat) (c : TransformCtx α Sh Af) (d : Data α)
      (e : E) (c2 : TransformCtx α Sh Af),
      runRows tf shape affine table rows c d = .err e c2 →
      c2.next_idx = c.next_idx ∧ c2.next_exp = c.next_exp ∧ c2.bidx = c.bidx := by
  intro rows
  induction rows with
  | nil =>
    intro c d e c2 h
    simp only [runRows] at h
    cases h
  | cons r rs ih =>
    intro c d e c2 h
    simp only [runRows] at h
    by_cases ha : (table[r]?.getD default).active = true
    · rw [if_pos ha] at h
      cases hap : applyT (tf (get_exp table r)) d with
      | error e2 =>
        simp only [hap] at h
        cases h
        exact ⟨rfl, rfl, rfl⟩
      | ok dN =>
        simp only [hap] at h
        cases hrec : runRows tf shape affine table rs
            (c.set_d shape affine dN (get_exp table r)) dN with
        | ok c3 d3 ex3 => simp only [hrec] at h; cases h
        | err e3 c3 =>
          simp only [hrec] at h
          cases h
          obtain ⟨hni, hne, hbx⟩ := ih _ _ _ _ hrec
          exact ⟨by rw [hni, (set_d_frame shape affine c dN (get_exp table r)).1],
            by rw [hne, (set_d_frame shape affine c dN (get_exp table r)).2.1],
            by rw [hbx, (set_d_frame shape affine c dN (get_exp table r)).2.2]⟩
    · rw [if_neg ha] at h
      exact ih _ _ _ _ h

end MonaiViz

namespace MonaiViz

variable {α Sh Af E : Type}

/-- Claim C3: for every `TransformCtx` state, `valid()` returns true
iff the cached data is non-null and the frontier index `next_idx` is
positive; and whenever `get_d` is asked to resume from an invocation
expression that does not equal the stored `next_exp`, the whole
context is reset to the empty (`__init__`) state and the caller's
freshly built dictionary is returned instead of cached data. -/
theorem c3_valid_iff_and_mismatch_resets :
    (∀ (c : TransformCtx α Sh Af), c.valid = true ↔ (c.d ≠ none ∧ 0 < c.next_idx))
    ∧ (∀ (c : TransformCtx α Sh Af) (e : String) (d0 : α),
        e ≠ c.next_exp →
        c.get_d (some e) d0 = (TransformCtx.init, .one d0)) := by
  constructor
  · intro c
    unfold TransformCtx.valid
    rcases hc : c.d with _ | x
    · simp [hc]
    · by_cases h : c.next_idx = 0 <;> simp [hc, h] <;> omega
  · intro c e d0 h
    have hne : (e == c.next_exp) = false := beq_eq_false_iff_ne.mpr h
    unfold TransformCtx.get_d TransformCtx.valid_for_next TransformCtx.reset
    simp only [hne, Bool.and_false, if_false, Bool.false_eq_true]
    simp [TransformCtx.valid, TransformCtx.init]

/-- Witness for C3 at a concrete populated context. -/
theorem c3_witness :
    (ctxA.valid = true)
    ∧ (ctxA.get_d (some "z") 7 = (TransformCtx.init, .one 7)) :=
  ⟨(c3_valid_iff_and_mismatch_resets.1 ctxA).mpr ⟨by simp [ctxA], by simp [ctxA]⟩,
   c3_valid_iff_and_mismatch_resets.2 ctxA "z" 7 (by decide)⟩

/-- Claim C10: `set_next(i, e)` modifies at most the frontier fields
when `(i, e)` differs from the stored pair, and at most the batch
cursor (incremented by one) when it equals the stored pair; the cached
dictionary, last-applied expression, channel flag, original shape and
original affine are unchanged in both cases, the batch cursor is never
reset by `set_next`, and `reset()` is what returns it to zero. -/
theorem c10_set_next_frame :
    (∀ (c : TransformCtx α Sh Af) (i : Nat) (e : String),
        (i ≠ c.next_idx ∨ e ≠ c.next_exp) →
        c.set_next i e = { c with next_idx := i, next_exp := e })
    ∧ (∀ (c : TransformCtx α Sh Af) (i : Nat) (e : String),
        i = c.next_idx → e = c.next_exp →
        c.set_next i e = { c with bidx := c.bidx + 1 })
    ∧ (∀ (c : TransformCtx α Sh Af) (i : Nat) (e : String),
        (c.set_next i e).d = c.d ∧ (c.set_next i e).last_exp = c.last_exp
        ∧ (c.set_next i e).channel = c.channel
        ∧ (c.set_next i e).original_spatial_shape = c.original_spatial_shape
        ∧ (c.set_next i e).original_affine = c.original_affine
        ∧ ((c.set_next i e).bidx = c.bidx ∨ (c.set_next i e).bidx = c.bidx + 1))
    ∧ (∀ (c : TransformCtx α Sh Af), c.reset.bidx = 0) := by
  refine ⟨?_, ?_, ?_, ?_⟩
  · intro c i e h
    unfold TransformCtx.set_next
    have : (c.next_idx == i && c.next_exp == e) = false := by
      rcases h with h | h
      · simp [beq_eq_false_iff_ne.mpr (Ne.symm h)]
      · simp [beq_eq_false_iff_ne.mpr (Ne.symm h)]
    simp [this]
  · intro c i e h1 h2
    unfold TransformCtx.set_next
    simp [h1, h2]
  · intro c i e
    unfold TransformCtx.set_next
    by_cases h : (c.next_idx == i && c.next_exp == e) = true <;> simp [h]
  · intro c
    simp [TransformCtx.reset, TransformCtx.init]

/-- Witness for C10 at concrete contexts: moving the frontier keeps
the batch cursor, repeating the pair advances it, and `reset` zeroes it. -/
theorem c10_witness :
    (ctxB.set_next 3 "z" = { ctxB with next_idx := 3, next_exp := "z" })
    ∧ (ctxB.set_next 1 "y" = { ctxB with bidx := 5 })
    ∧ (ctxB.reset.bidx = 0) :=
  ⟨c10_set_next_frame.1 ctxB 3 "z" (Or.inl (by decide)),
   c10_set_next_frame.2.1 ctxB 1 "y" (by decide) (by decide),
   c10_set_next_frame.2.2.2 ctxB⟩

end MonaiViz

namespace MonaiViz

variable {α Sh Af E : Type}

theorem init_last_exp : (TransformCtx.init : TransformCtx α Sh Af).last_exp = "" := rfl

theorem get_d_init (e : String) (d0 : α) :
    (TransformCtx.init : TransformCtx α Sh Af).get_d (some e) d0
      = (TransformCtx.init, .one d0) := by
  unfold TransformCtx.get_d TransformCtx.valid_for_next TransformCtx.reset
  simp [TransformCtx.init, TransformCtx.valid]

/-- Claim C9: adding a transform suggests the default keyword argument
string `keys=['<imageKey>', '<labelKey>']` exactly when its name ends
in the letter `d` and is not in the fixed exclusion list; in
particular `LoadImaged` gets the keys suggestion built from the
configured image and label keys, and `RandAffineGrid` gets none. -/
theorem c9_dict_style_default_args :
    (∀ (t ik lk : String),
        defaultTransformArgs t ik lk ≠ "" ↔
          (endsWithChar t 'd' = true ∧ t ∉ dictExclusions))
    ∧ (∀ (ik lk : String), defaultTransformArgs "LoadImaged" ik lk
        = "keys=[" ++ sq ++ ik ++ sq ++ ", " ++ sq ++ lk ++ sq ++ "]")
    ∧ (∀ (ik lk : String), defaultTransformArgs "RandAffineGrid" ik lk = "") := by
  refine ⟨?_, fun ik lk => rfl, fun ik lk => rfl⟩
  intro t ik lk
  unfold defaultTransformArgs
  cases h1 : endsWithChar t 'd' with
  | false => simp [h1]
  | true =>
    cases h2 : dictExclusions.contains t with
    | true =>
      have hmem : t ∈ dictExclusions := by simpa using h2
      simp [h1, h2, hmem]
    | false =>
      have hmem : t ∉ dictExclusions := by simpa using h2
      simp only [h1, if_true, h2, Bool.not_false]
      constructor
      · intro _; exact ⟨trivial, hmem⟩
      · intro _ heq
        have h3 := congrArg String.data heq
        simp only [String.data_append] at h3
        simp at h3

/-- Counterexample to claim C5: exporting a pipeline containing a row
whose transform name does not end in `d` (here `LoadImage` with args
`image_only=True`) and importing the file back drops the row's
argument string, so the round trip is not exact. -/
theorem c5_counterexample :
    onLoadTransform (onSaveTransform [loadImageRow]) []
      = [{ active := true, name := "LoadImage", args := "" }]
    ∧ onLoadTransform (onSaveTransform [loadImageRow]) [] ≠ [loadImageRow] := by
  constructor
  · decide
  · decide

theorem onLoad_save_general (rows : List Row) :
    ∀ (acc : List Row),
      onLoadTransform ((List.enumFrom acc.length rows).map
          (fun p => (p.1, p.2.name, p.2.args))) acc
        = acc ++ rows.map importedRow := by
  induction rows with
  | nil => intro acc; simp [onLoadTransform]
  | cons r rs ih =>
    intro acc
    have hstep : onLoadTransform ((List.enumFrom acc.length (r :: rs)).map
          (fun p => (p.1, p.2.name, p.2.args))) acc
        = onLoadTransform ((List.enumFrom (acc.length + 1) rs).map
            (fun p => (p.1, p.2.name, p.2.args)))
          (addTransformRow acc acc.length r.name
            (if isDictStyleName r.name then r.args else "")) := by
      simp [onLoadTransform, List.enumFrom]
    rw [hstep]
    have h2 := ih (acc ++ [importedRow r])
    simp only [List.length_append, List.length_singleton] at h2
    simp only [addTransformRow, importedRow] at h2 ⊢
    rw [List.insertIdx_length_self, h2]
    simp [importedRow]

/-- Amended claim C5: export-then-import through the JSON pipeline
format preserves row order and transform names exactly, and preserves
the argument string of a row exactly when the dictionary-style
heuristic accepts its name (ends in `d`, not in the exclusion list);
every other row's argument string is imported as the empty string (and
every imported row is marked active). -/
theorem c5_roundtrip_amended (table : List Row) :
    onLoadTransform (onSaveTransform table) [] = table.map importedRow := by
  have h := onLoad_save_general table []
  simpa [onSaveTransform, List.enum] using h

/-- Claim C4: editing a row whose index precedes the cache frontier
(with an actually-changed expression) resets the context to the empty
state, and a subsequent run of row `k` from the empty state recomputes
exactly the active rows `0 .. k`. -/
theorem c4_edit_before_frontier_invalidates
    (tf : String → α → Except E α) (shape : α → Sh) (affine : α → Af)
    (c : TransformCtx α Sh Af) (rowCount row : Nat) (oldExp newExp : String)
    (table : List Row) (k : Nat) (d0 : α)
    (hrow : row < c.next_idx) (hne : newExp ≠ oldExp) :
    onEditTransformCache c rowCount row oldExp newExp = TransformCtx.init
    ∧ (∀ (c2 : TransformCtx α Sh Af) (dF : Data α) (ex : List Nat) (disp : Option Nat),
        k < table.length →
        onRunTransform tf shape affine table k TransformCtx.init d0 = .ok c2 dF ex disp →
        ex = (List.range' 0 (k + 1)).filter
          (fun r => (table[r]?.getD default).active)) := by
  constructor
  · unfold onEditTransformCache TransformCtx.reset
    rw [if_pos hne, if_pos (Or.inl hrow)]
  · intro c2 dF ex disp hk hrun
    have hce : get_exp table k ≠ "" := get_exp_ne_empty table k hk
    unfold onRunTransform at hrun
    simp only [get_d_init] at hrun
    have hstep : runStep tf shape affine table k
          ((TransformCtx.init : TransformCtx α Sh Af), Data.one d0)
        = runRows tf shape affine table (List.range' 0 (k + 1))
            TransformCtx.init (.one d0) := by
      unfold runStep
      rw [if_pos (show (TransformCtx.init : TransformCtx α Sh Af).last_exp
          ≠ get_exp table k from by simpa [init_last_exp] using Ne.symm hce)]
      simp [TransformCtx.init]
    rw [hstep] at hrun
    cases hr : runRows tf shape affine table (List.range' 0 (k + 1))
        (TransformCtx.init : TransformCtx α Sh Af) (.one d0) with
    | ok c3 d3 ex3 =>
      simp only [hr] at hrun
      cases hrun
      have hspec := (runRows_ok_spec tf shape affine table _ _ _ _ _ _ hr).1
      simpa using hspec
    | err e c3 =>
      simp only [hr] at hrun
      cases hrun

end MonaiViz

namespace MonaiViz

variable {α Sh Af E : Type}

theorem get_d_some_fst (c : TransformCtx α Sh Af) (e : String) (d0 : α) :
    (c.get_d (some e) d0).1 = c ∨ (c.get_d (some e) d0).1 = TransformCtx.init := by
  unfold TransformCtx.get_d
  by_cases hv : c.valid_for_next e = true
  · simp only [hv, if_true]
    by_cases hval : c.valid = true
    · simp only [hval, if_true]
      cases hd : c.d with
      | none => left; rfl
      | some dd => left; rfl
    · left
      simp [hval]
  · have hv2 : c.valid_for_next e = false := by simpa using hv
    right
    simp only [hv2, Bool.false_eq_true, if_false, TransformCtx.reset]
    have : (TransformCtx.init : TransformCtx α Sh Af).valid = false := rfl
    simp [this]

/-- Claim C1: when the current expression is not the cache's
last-applied expression, running row `k` executes exactly the active
rows from the cache frontier (the `next_idx` the context holds after
the `get_d` validity handling) through `k`, in ascending order,
skipping inactive rows; the resulting dictionary is the functional
fold of the executed transforms over the dictionary `get_d` produced;
and afterwards the frontier is `k+1` with `next_exp` set to row
`k+1`'s expression, or stays at `k` when `k` is the last row. -/
theorem c1_run_executes_frontier_to_k
    (tf : String → α → Except E α) (shape : α → Sh) (affine : α → Af)
    (table : List Row) (k : Nat) (c : TransformCtx α Sh Af) (d0 : α)
    (c2 : TransformCtx α Sh Af) (dF : Data α) (ex : List Nat) (disp : Option Nat)
    (hk : k < table.length)
    (hdiff : (c.get_d (some (get_exp table k)) d0).1.last_exp ≠ get_exp table k)
    (hrun : onRunTransform tf shape affine table k c d0 = .ok c2 dF ex disp) :
    ex = (List.range' (c.get_d (some (get_exp table k)) d0).1.next_idx
            (k + 1 - (c.get_d (some (get_exp table k)) d0).1.next_idx)).filter
          (fun r => (table[r]?.getD default).active)
    ∧ applyRows tf table ex (c.get_d (some (get_exp table k)) d0).2 = .ok dF
    ∧ c2.next_idx = (if k + 1 < table.length then k + 1 else k)
    ∧ c2.next_exp = get_exp table (if k + 1 < table.length then k + 1 else k) := by
  unfold onRunTransform at hrun
  have hstep : runStep tf shape affine table k (c.get_d (some (get_exp table k)) d0)
      = runRows tf shape affine table
          (List.range' (c.get_d (some (get_exp table k)) d0).1.next_idx
            (k + 1 - (c.get_d (some (get_exp table k)) d0).1.next_idx))
          (c.get_d (some (get_exp table k)) d0).1
          (c.get_d (some (get_exp table k)) d0).2 := by
    unfold runStep
    rw [if_pos hdiff]
  rw [hstep] at hrun
  cases hr : runRows tf shape affine table
      (List.range' (c.get_d (some (get_exp table k)) d0).1.next_idx
        (k + 1 - (c.get_d (some (get_exp table k)) d0).1.next_idx))
      (c.get_d (some (get_exp table k)) d0).1
      (c.get_d (some (get_exp table k)) d0).2 with
  | ok c3 d3 ex3 =>
    simp only [hr] at hrun
    cases hrun
    obtain ⟨hex, happ, _, _, _⟩ := runRows_ok_spec tf shape affine table _ _ _ _ _ _ hr
    refine ⟨hex, happ, ?_, ?_⟩
    · rw [(set_next_fields c3 _ _).1]
      unfold nextIdxAfter
      rfl
    · rw [(set_next_fields c3 _ _).2]
      unfold nextIdxAfter
      rfl
  | err e c3 =>
    simp only [hr] at hrun
    cases hrun

/-- Witness for C1: running row 2 of the concrete table `c4tbl` (with
an inactive middle row) from the empty cache executes exactly rows
0 and 2 and moves the frontier to row 2 (the last row). -/
theorem c1_witness :
    ([0, 2] : List Nat) = (List.range' 0 3).filter
        (fun r => ((c4tbl)[r]?.getD default).active)
    ∧ applyRows tfW c4tbl [0, 2]
        ((TransformCtx.init : TransformCtx Nat Nat Nat).get_d
          (some (get_exp c4tbl 2)) 0).2 = .ok (.one 2)
    ∧ cRun.next_idx = (if 2 + 1 < c4tbl.length then 2 + 1 else 2)
    ∧ cRun.next_exp = get_exp c4tbl (if 2 + 1 < c4tbl.length then 2 + 1 else 2) :=
  c1_run_executes_frontier_to_k tfW id id c4tbl 2 TransformCtx.init 0 cRun
    (.one 2) [0, 2] none (by decide) (by decide) (by decide)

theorem repeat_run_aux (tf : String → α → Except E α) (shape : α → Sh)
    (affine : α → Af) (table : List Row) (k : Nat) (c : TransformCtx α Sh Af)
    (d0 : α) (l : List α)
    (hk : k + 1 = table.length)
    (hd : c.d = some (.many l))
    (hl : l ≠ [])
    (hni : c.next_idx = k)
    (hnex : c.next_exp = get_exp table k)
    (hle : c.last_exp = get_exp table k) :
    onRunTransform tf shape affine table k c d0 =
      .ok { c with bidx := c.bidx + 1 } (c.get_d (some (get_exp table k)) d0).2 []
        (some (c.bidx % l.length)) := by
  have hklt : k < table.length := by omega
  have hce : get_exp table k ≠ "" := get_exp_ne_empty table k hklt
  have hvfn : c.valid_for_next (get_exp table k) = true := by
    unfold TransformCtx.valid_for_next
    have h1 : (get_exp table k != "") = true := bne_iff_ne.mpr hce
    have h2 : (c.next_exp != "") = true := by rw [hnex]; exact bne_iff_ne.mpr hce
    have h3 : (get_exp table k == c.next_exp) = true := by
      rw [hnex]; simp
    simp [h1, h2, h3]
  have hfst : (c.get_d (some (get_exp table k)) d0).1 = c := by
    unfold TransformCtx.get_d
    simp only [hvfn, if_true]
    by_cases hv : c.valid = true
    · simp only [hv, if_true]
      rw [hd]
    · simp [hv]
  unfold onRunTransform
  have hstep : runStep tf shape affine table k (c.get_d (some (get_exp table k)) d0)
      = .ok c (c.get_d (some (get_exp table k)) d0).2 [] := by
    unfold runStep
    rw [hfst]
    rw [if_neg (by rw [hle]; exact fun hcon => hcon rfl)]
  rw [hstep]
  have hni2 : nextIdxAfter table k = k := by
    unfold nextIdxAfter
    rw [if_neg (by omega)]
  simp only [hni2]
  have hsn : c.set_next k (get_exp table k) = { c with bidx := c.bidx + 1 } := by
    unfold TransformCtx.set_next
    have h1 : (c.next_idx == k) = true := by rw [hni]; simp
    have h2 : (c.next_exp == get_exp table k) = true := by rw [hnex]; simp
    simp [h1, h2]
  rw [hsn]
  have hdisp : dispOf c = some (c.bidx % l.length) := by
    unfold dispOf
    rw [hd]
    have hlen : (l.length == 0) = false := by
      have := List.length_pos.mpr hl
      simp only [beq_eq_false_iff_ne]
      omega
    simp [hlen]
  rw [hdisp]

/-- Claim C2: a repeat invocation of the already-cached row `k` (the
last table row, whose expression equals both the stored `next_exp` and
the stored `last_exp`) with a cached list-valued result re-executes no
transform; it displays batch index `i mod len(data)` where `i` is the
cursor value, and advances the cursor to `i + 1`, so the immediately
following repeat displays `(i+1) mod len(data)`. -/
theorem c2_repeat_advances_cursor
    (tf : String → α → Except E α) (shape : α → Sh) (affine : α → Af)
    (table : List Row) (k : Nat) (c : TransformCtx α Sh Af) (d0 : α) (l : List α)
    (hk : k + 1 = table.length)
    (hd : c.d = some (.many l))
    (hl : l ≠ [])
    (hni : c.next_idx = k)
    (hnex : c.next_exp = get_exp table k)
    (hle : c.last_exp = get_exp table k) :
    onRunTransform tf shape affine table k c d0 =
      .ok { c with bidx := c.bidx + 1 } (c.get_d (some (get_exp table k)) d0).2 []
        (some (c.bidx % l.length))
    ∧ onRunTransform tf shape affine table k { c with bidx := c.bidx + 1 } d0 =
      .ok { c with bidx := c.bidx + 1 + 1 }
        (({ c with bidx := c.bidx + 1 } : TransformCtx α Sh Af).get_d
          (some (get_exp table k)) d0).2 []
        (some ((c.bidx + 1) % l.length)) := by
  refine ⟨repeat_run_aux tf shape affine table k c d0 l hk hd hl hni hnex hle, ?_⟩
  exact repeat_run_aux tf shape affine table k { c with bidx := c.bidx + 1 } d0 l
    hk hd hl hni hnex hle

/-- Witness for C2: repeating the run of the last row of `c2tbl` on
the cached two-element batch executes nothing, displays index 0, and
the immediately following repeat displays index 1. -/
theorem c2_witness :
    onRunTransform tfW id id c2tbl 1 c2ctx 0 =
      .ok { c2ctx with bidx := c2ctx.bidx + 1 }
        (c2ctx.get_d (some (get_exp c2tbl 1)) 0).2 []
        (some (c2ctx.bidx % [10, 20].length))
    ∧ onRunTransform tfW id id c2tbl 1 { c2ctx with bidx := c2ctx.bidx + 1 } 0 =
      .ok { c2ctx with bidx := c2ctx.bidx + 1 + 1 }
        (({ c2ctx with bidx := c2ctx.bidx + 1 } : TransformCtx Nat Nat Nat).get_d
          (some (get_exp c2tbl 1)) 0).2 []
        (some ((c2ctx.bidx + 1) % [10, 20].length)) :=
  c2_repeat_advances_cursor tfW id id c2tbl 1 c2ctx 0 [10, 20]
    (by decide) (by decide) (by decide) (by decide) (by decide) (by decide)

/-- Counterexample to claim C6: running row 1 of `c6tbl` from the
empty cache with a transform semantics that succeeds on row 0 and
raises on row 1 propagates the error, but leaves the cache holding row
0's stored result — not the pre-call (empty) state, because `set_d`
runs after each successful transform before the failure. -/
theorem c6_counterexample :
    onRunTransform tfF id id c6tbl 1 TransformCtx.init 0 = .err () cMid
    ∧ cMid ≠ TransformCtx.init := by
  constructor
  · decide
  · decide

/-- Amended claim C6: when a transform evaluation or application
raises, the error propagates to the caller (the run returns the first
failure, with no retry) and the failed run never advances the frontier
or the batch cursor: they equal their values after the initial `get_d`
validity handling, which itself either leaves the whole context
untouched or fully resets it.  (The cached dictionary and
`last_exp`, however, keep the updates of the transforms that succeeded
before the failure, so the full state generally differs from the
pre-call state.) -/
theorem c6_error_preserves_frontier
    (tf : String → α → Except E α) (shape : α → Sh) (affine : α → Af)
    (table : List Row) (k : Nat) (c : TransformCtx α Sh Af) (d0 : α)
    (e : E) (c2 : TransformCtx α Sh Af)
    (herr : onRunTransform tf shape affine table k c d0 = .err e c2) :
    c2.next_idx = (c.get_d (some (get_exp table k)) d0).1.next_idx
    ∧ c2.next_exp = (c.get_d (some (get_exp table k)) d0).1.next_exp
    ∧ c2.bidx = (c.get_d (some (get_exp table k)) d0).1.bidx
    ∧ ((c.get_d (some (get_exp table k)) d0).1 = c
        ∨ (c.get_d (some (get_exp table k)) d0).1 = TransformCtx.init) := by
  have hface := get_d_some_fst c (get_exp table k) d0
  unfold onRunTransform at herr
  by_cases hcond : (c.get_d (some (get_exp table k)) d0).1.last_exp ≠ get_exp table k
  · have hstep : runStep tf shape affine table k (c.get_d (some (get_exp table k)) d0)
        = runRows tf shape affine table
            (List.range' (c.get_d (some (get_exp table k)) d0).1.next_idx
              (k + 1 - (c.get_d (some (get_exp table k)) d0).1.next_idx))
            (c.get_d (some (get_exp table k)) d0).1
            (c.get_d (some (get_exp table k)) d0).2 := by
      unfold runStep
      rw [if_pos hcond]
    rw [hstep] at herr
    cases hr : runRows tf shape affine table
        (List.range' (c.get_d (some (get_exp table k)) d0).1.next_idx
          (k + 1 - (c.get_d (some (get_exp table k)) d0).1.next_idx))
        (c.get_d (some (get_exp table k)) d0).1
        (c.get_d (some (get_exp table k)) d0).2 with
    | ok c3 d3 ex3 =>
      simp only [hr] at herr
      cases herr
    | err e3 c3 =>
      simp only [hr] at herr
      cases herr
      obtain ⟨h1, h2, h3⟩ := runRows_err_spec tf shape affine table _ _ _ _ _ hr
      exact ⟨h1, h2, h3, hface⟩
  · have hstep : runStep tf shape affine table k (c.get_d (some (get_exp table k)) d0)
        = .ok (c.get_d (some (get_exp table k)) d0).1
            (c.get_d (some (get_exp table k)) d0).2 [] := by
      unfold runStep
      rw [if_neg hcond]
    simp only [hstep] at herr
    cases herr

/-- Witness for the amended C6 at the concrete failing run: the
context after the error keeps the initial frontier and cursor. -/
theorem c6_witness :
    cMid.next_idx = ((TransformCtx.init : TransformCtx Nat Nat Nat).get_d
        (some (get_exp c6tbl 1)) 0).1.next_idx
    ∧ cMid.next_exp = ((TransformCtx.init : TransformCtx Nat Nat Nat).get_d
        (some (get_exp c6tbl 1)) 0).1.next_exp
    ∧ cMid.bidx = ((TransformCtx.init : TransformCtx Nat Nat Nat).get_d
        (some (get_exp c6tbl 1)) 0).1.bidx
    ∧ (((TransformCtx.init : TransformCtx Nat Nat Nat).get_d
          (some (get_exp c6tbl 1)) 0).1 = TransformCtx.init
        ∨ ((TransformCtx.init : TransformCtx Nat Nat Nat).get_d
          (some (get_exp c6tbl 1)) 0).1 = TransformCtx.init) :=
  c6_error_preserves_frontier tfF id id c6tbl 1 TransformCtx.init 0 () cMid
    (by decide)

end MonaiViz

namespace MonaiViz

/-- Claim C7: `get_tensor_osd` derives the display geometry of an
`(n+1) x (n+1)` affine matrix as follows — the origin is the last
column without the homogeneous row, the spacing of column `j` is the
Euclidean norm of column `j` of the upper-left `n x n` linear block
(the multiplication by `np.eye(dim)` is the identity), and the
direction is that block with each column divided by its spacing; in
particular, for the identity affine the origin is the zero vector, the
spacing is all-ones and the direction is the identity matrix. -/
theorem c7_geometry (n : Nat) (A : Matrix (Fin (n + 1)) (Fin (n + 1)) ℝ) :
    (get_tensor_osd A).1 = (fun i => A i.castSucc (Fin.last n))
    ∧ (∀ (j : Fin n), (get_tensor_osd A).2.1 j
        = Real.sqrt (∑ i : Fin n, A i.castSucc j.castSucc ^ 2))
    ∧ (∀ (i j : Fin n), (get_tensor_osd A).2.2 i j
        = A i.castSucc j.castSucc / (get_tensor_osd A).2.1 j)
    ∧ get_tensor_osd (1 : Matrix (Fin (n + 1)) (Fin (n + 1)) ℝ)
      = (fun _ => 0, fun _ => 1, 1) := by
  have hlinone : linearBlock (1 : Matrix (Fin (n + 1)) (Fin (n + 1)) ℝ) = 1 :=
    Matrix.submatrix_one Fin.castSucc (Fin.castSucc_injective n)
  have hspac1 : ∀ j, osdSpacing (1 : Matrix (Fin (n + 1)) (Fin (n + 1)) ℝ) j = 1 := by
    intro j
    unfold osdSpacing
    rw [hlinone, Matrix.one_mul]
    have hsum : (∑ i, ((1 : Matrix (Fin n) (Fin n) ℝ) i j) ^ 2) = 1 := by
      rw [Finset.sum_eq_single j]
      · simp [Matrix.one_apply]
      · intro b _ hb
        simp [Matrix.one_apply, hb]
      · intro hj
        exact absurd (Finset.mem_univ j) hj
    rw [hsum, Real.sqrt_one]
  refine ⟨rfl, ?_, ?_, ?_⟩
  · intro j
    show osdSpacing A j = _
    unfold osdSpacing
    rw [Matrix.mul_one]
    simp [linearBlock, Matrix.submatrix_apply]
  · intro i j
    show osdDirection A i j = _
    unfold osdDirection
    rw [Matrix.mul_diagonal]
    show linearBlock A i j * (1 / osdSpacing A j) = _
    rw [mul_one_div]
    rfl
  · show (osdOrigin 1, osdSpacing 1, osdDirection 1) = _
    have horig : osdOrigin (1 : Matrix (Fin (n + 1)) (Fin (n + 1)) ℝ)
        = (fun _ => 0) := by
      funext i
      unfold osdOrigin
      exact Matrix.one_apply_ne (ne_of_lt (Fin.castSucc_lt_last i))
    have hdir : osdDirection (1 : Matrix (Fin (n + 1)) (Fin (n + 1)) ℝ) = 1 := by
      unfold osdDirection
      rw [hlinone]
      have : (fun j => 1 / osdSpacing (1 : Matrix (Fin (n + 1)) (Fin (n + 1)) ℝ) j)
          = (fun _ => (1 : ℝ)) := by
        funext j
        rw [hspac1 j, one_div_one]
      rw [this, Matrix.diagonal_one, Matrix.one_mul]
    rw [horig, hdir]
    have : osdSpacing (1 : Matrix (Fin (n + 1)) (Fin (n + 1)) ℝ) = (fun _ => 1) :=
      funext hspac1
    rw [this]

end MonaiViz

namespace MonaiViz

theorem lookupMeta_isSome_iff (res : List (String × TMeta)) (cp : String) :
    (lookupMeta res cp).isSome = true ↔ cp ∈ res.map Prod.fst := by
  induction res with
  | nil => simp [lookupMeta]
  | cons a as ih =>
    by_cases h : (a.1 == cp) = true
    · have e : a.1 = cp := by simpa using h
      simp [lookupMeta, h, e]
    · have hne : a.1 ≠ cp := by simpa using h
      simp only [lookupMeta, h, Bool.false_eq_true, if_false, List.map_cons,
        List.mem_cons]
      rw [ih]
      constructor
      · exact Or.inr
      · rintro (he | hm)
        · exact absurd he.symm hne
        · exact hm

theorem appendAliasTo_map_fst (res : List (String × TMeta)) (cp n : String) :
    (appendAliasTo res cp n).map Prod.fst = res.map Prod.fst := by
  unfold appendAliasTo
  rw [List.map_map]
  apply List.map_congr_left
  intro p _
  show (if p.1 == cp then (p.1, { p.2 with aliasNames := p.2.aliasNames ++ [n] }) else p).1 = p.1
  split
  · rfl
  · rfl

theorem lookupMeta_appendAliasTo (res : List (String × TMeta)) (cp n cp2 : String) :
    lookupMeta (appendAliasTo res cp n) cp2
      = if cp2 = cp
        then (lookupMeta res cp2).map
          (fun m => { m with aliasNames := m.aliasNames ++ [n] })
        else lookupMeta res cp2 := by
  induction res with
  | nil => by_cases h : cp2 = cp <;> simp [appendAliasTo, lookupMeta, h]
  | cons a as ih =>
    have hcons : appendAliasTo (a :: as) cp n
        = (if a.1 == cp
            then (a.1, { a.2 with aliasNames := a.2.aliasNames ++ [n] })
            else a)
          :: appendAliasTo as cp n := rfl
    rw [hcons]
    by_cases h1 : (a.1 == cp) = true
    · rw [if_pos h1]
      by_cases h2 : (a.1 == cp2) = true
      · have e1 : a.1 = cp := by simpa using h1
        have e2 : a.1 = cp2 := by simpa using h2
        have e3 : cp2 = cp := by rw [← e2, e1]
        simp [lookupMeta, h2, e3, e1]
      · have e1 : a.1 = cp := by simpa using h1
        have h2f : (a.1 == cp2) = false := by simpa using h2
        have e3 : cp2 ≠ cp := by
          intro hq
          exact (by simpa using h2 : a.1 ≠ cp2) (by rw [e1, hq])
        simp only [lookupMeta, h2f, Bool.false_eq_true, if_false]
        rw [ih, if_neg e3]
    · rw [if_neg h1]
      by_cases h2 : (a.1 == cp2) = true
      · have e2 : a.1 = cp2 := by simpa using h2
        have e3 : cp2 ≠ cp := by
          intro hq
          exact (by simpa using h1 : a.1 ≠ cp) (by rw [e2, hq])
        simp [lookupMeta, h2, e3]
      · have h2f : (a.1 == cp2) = false := by simpa using h2
        simp only [lookupMeta, h2f, Bool.false_eq_true, if_false]
        rw [ih]

theorem lookupMeta_append_one (res : List (String × TMeta)) (cp : String)
    (m : TMeta) (cp2 : String) :
    lookupMeta (res ++ [(cp, m)]) cp2
      = match lookupMeta res cp2 with
        | some x => some x
        | none => if cp = cp2 then some m else none := by
  induction res with
  | nil => by_cases h : cp = cp2 <;> simp [lookupMeta, h]
  | cons a as ih =>
    by_cases h : (a.1 == cp2) = true <;> simp [lookupMeta, h, ih]

end MonaiViz

namespace MonaiViz

theorem catalogStep_skip (bcs : List String) (res : List (String × TMeta))
    (m : String × PyObj) (h : catalogHit bcs m = false) :
    catalogStep bcs res m = res := by
  unfold catalogStep
  by_cases h1 : (!m.2.isClass || m.2.isAbstract) = true
  · rw [if_pos h1]
  · rw [if_neg h1]
    have h1f : (!m.2.isClass || m.2.isAbstract) = false := by simpa using h1
    unfold catalogHit at h
    rw [h1f] at h
    simp only [Bool.not_false, Bool.true_and] at h
    cases hf : bcs.find? (fun bc => is_subclass m.1 m.2 bc) with
    | none => rfl
    | some bc => rw [hf] at h; simp at h

theorem catalogStep_hit (bcs : List String) (res : List (String × TMeta))
    (m : String × PyObj) (h : catalogHit bcs m = true) :
    (aliasList (catalogStep bcs res m) (qualName m.2)
        = aliasList res (qualName m.2) ++ [m.1])
    ∧ (∀ cp, cp ≠ qualName m.2 →
        aliasList (catalogStep bcs res m) cp = aliasList res cp)
    ∧ ((catalogStep bcs res m).map Prod.fst
        = res.map Prod.fst ++
          (if (lookupMeta res (qualName m.2)).isSome then [] else [qualName m.2])) := by
  unfold catalogHit at h
  have h1 : (!m.2.isClass || m.2.isAbstract) = false := by
    have := ((Bool.and_eq_true _ _).mp h).1
    simpa using this
  have h2 : (bcs.find? (fun bc => is_subclass m.1 m.2 bc)).isSome = true :=
    ((Bool.and_eq_true _ _).mp h).2
  unfold catalogStep
  rw [if_neg (by simp [h1])]
  cases hf : bcs.find? (fun bc => is_subclass m.1 m.2 bc) with
  | none => rw [hf] at h2; simp at h2
  | some bc =>
    dsimp only
    cases hl : lookupMeta res (qualName m.2) with
    | some m0 =>
      simp only [hl]
      refine ⟨?_, ?_, ?_⟩
      · unfold aliasList
        rw [lookupMeta_appendAliasTo, if_pos rfl, hl]
        rfl
      · intro cp hcp
        unfold aliasList
        rw [lookupMeta_appendAliasTo, if_neg hcp]
      · rw [appendAliasTo_map_fst]
        simp
    | none =>
      simp only [hl]
      refine ⟨?_, ?_, ?_⟩
      · unfold aliasList
        rw [lookupMeta_append_one, hl]
        simp [mkMeta]
      · intro cp hcp
        unfold aliasList
        rw [lookupMeta_append_one]
        cases hx : lookupMeta res cp with
        | some mx => rfl
        | none => rw [if_neg (fun hq => hcp hq.symm)]
      · rw [List.map_append]
        simp

theorem foldl_alias (bcs : List String) (ms : List (String × PyObj)) :
    ∀ (res : List (String × TMeta)) (cp : String),
      aliasList (ms.foldl (catalogStep bcs) res) cp
        = aliasList res cp
          ++ (ms.filter
              (fun p => catalogHit bcs p && (qualName p.2 == cp))).map Prod.fst := by
  induction ms with
  | nil => intro res cp; simp
  | cons m ms ih =>
    intro res cp
    rw [List.foldl_cons, ih, List.filter_cons]
    by_cases hh : (catalogHit bcs m && (qualName m.2 == cp)) = true
    · rw [if_pos hh]
      have h1 : catalogHit bcs m = true := ((Bool.and_eq_true _ _).mp hh).1
      have h2 : qualName m.2 = cp := by
        simpa using ((Bool.and_eq_true _ _).mp hh).2
      rw [← h2, (catalogStep_hit bcs res m h1).1]
      simp
    · rw [if_neg hh]
      by_cases h1 : catalogHit bcs m = true
      · have h2 : qualName m.2 ≠ cp := by
          intro hq
          exact hh (by simp [h1, hq])
        rw [(catalogStep_hit bcs res m h1).2.1 cp (Ne.symm h2)]
      · rw [catalogStep_skip bcs res m (by simpa using h1)]

theorem foldl_keys_mem (bcs : List String) (ms : List (String × PyObj)) :
    ∀ (res : List (String × TMeta)) (cp : String),
      cp ∈ ((ms.foldl (catalogStep bcs) res).map Prod.fst)
        ↔ cp ∈ res.map Prod.fst
          ∨ ∃ p ∈ ms, catalogHit bcs p = true ∧ qualName p.2 = cp := by
  induction ms with
  | nil => intro res cp; simp
  | cons m ms ih =>
    intro res cp
    rw [List.foldl_cons, ih]
    constructor
    · rintro (hmem | ⟨p, hp, hhit, hq⟩)
      · by_cases h1 : catalogHit bcs m = true
        · rw [(catalogStep_hit bcs res m h1).2.2] at hmem
          rcases List.mem_append.mp hmem with hm | hm
          · exact Or.inl hm
          · by_cases hsome : (lookupMeta res (qualName m.2)).isSome = true
            · rw [if_pos hsome] at hm
              simp at hm
            · rw [if_neg hsome] at hm
              have he : cp = qualName m.2 := by simpa using hm
              exact Or.inr ⟨m, List.mem_cons_self m ms, h1, he.symm⟩
        · rw [catalogStep_skip bcs res m (by simpa using h1)] at hmem
          exact Or.inl hmem
      · exact Or.inr ⟨p, List.mem_cons_of_mem m hp, hhit, hq⟩
    · rintro (hmem | ⟨p, hp, hhit, hq⟩)
      · left
        by_cases h1 : catalogHit bcs m = true
        · rw [(catalogStep_hit bcs res m h1).2.2]
          exact List.mem_append_left _ hmem
        · rw [catalogStep_skip bcs res m (by simpa using h1)]
          exact hmem
      · rcases List.mem_cons.mp hp with rfl | hin
        · left
          rw [(catalogStep_hit bcs res p hhit).2.2]
          by_cases hsome : (lookupMeta res (qualName p.2)).isSome = true
          · apply List.mem_append_left
            rw [← hq]
            exact (lookupMeta_isSome_iff res _).mp hsome
          · apply List.mem_append_right
            rw [if_neg hsome]
            simp [hq]
        · exact Or.inr ⟨p, hin, hhit, hq⟩

theorem foldl_keys_nodup (bcs : List String) (ms : List (String × PyObj)) :
    ∀ (res : List (String × TMeta)), (res.map Prod.fst).Nodup →
      ((ms.foldl (catalogStep bcs) res).map Prod.fst).Nodup := by
  induction ms with
  | nil => intro res h; simpa
  | cons m ms ih =>
    intro res h
    rw [List.foldl_cons]
    apply ih
    by_cases h1 : catalogHit bcs m = true
    · rw [(catalogStep_hit bcs res m h1).2.2]
      by_cases hsome : (lookupMeta res (qualName m.2)).isSome = true
      · simpa [if_pos hsome]
      · rw [if_neg hsome]
        have hq : qualName m.2 ∉ res.map Prod.fst := by
          intro hmem
          exact hsome ((lookupMeta_isSome_iff res _).mpr hmem)
        simp [List.nodup_append, h, hq]
    · rw [catalogStep_skip bcs res m (by simpa using h1)]
      exact h

end MonaiViz

namespace MonaiViz

theorem filterMap_keys_of_lookup (g : TMeta → TMeta) (res : List (String × TMeta)) :
    ∀ (L : List String), (∀ cp ∈ L, (lookupMeta res cp).isSome = true) →
      ((L.filterMap (fun cp => (lookupMeta res cp).map (fun m0 => (cp, g m0)))).map
          Prod.fst) = L := by
  intro L
  induction L with
  | nil => intro _; rfl
  | cons x xs ih =>
    intro hall
    have hx := hall x (List.mem_cons_self x xs)
    cases hl : lookupMeta res x with
    | none => rw [hl] at hx; simp at hx
    | some m0 =>
      have hstep : List.filterMap
            (fun cp => (lookupMeta res cp).map (fun m0 => (cp, g m0))) (x :: xs)
          = (x, g m0) :: List.filterMap
              (fun cp => (lookupMeta res cp).map (fun m0 => (cp, g m0))) xs := by
        rw [List.filterMap_cons]
        simp [hl]
      rw [hstep, List.map_cons,
        ih (fun cp hcp => hall cp (List.mem_cons_of_mem _ hcp))]

theorem filterMap_entries_lookup (g : TMeta → TMeta) (res : List (String × TMeta)) :
    ∀ (L : List String) (e : String × TMeta),
      e ∈ L.filterMap (fun cp => (lookupMeta res cp).map (fun m0 => (cp, g m0))) →
      ∃ m0, lookupMeta res e.1 = some m0 ∧ e.2 = g m0 := by
  intro L
  induction L with
  | nil => intro e he; simp at he
  | cons x xs ih =>
    intro e he
    rw [List.filterMap_cons] at he
    cases hl : lookupMeta res x with
    | none =>
      rw [hl] at he
      exact ih e (by simpa using he)
    | some m0 =>
      rw [hl] at he
      simp only [Option.map_some'] at he
      rcases List.mem_cons.mp he with rfl | h2
      · exact ⟨m0, hl, rfl⟩
      · exact ih e h2

/-- Counterexample to claim C8: a member list whose single entry is a
concrete class with direct base-class name `Transform` — but whose own
member name is also `Transform` — produces an empty catalog, because
`is_subclass` additionally requires the member name to differ from the
matched base-class name; the claim's "exactly the concrete classes
whose direct base-class name is Transform or MapTransform" is
therefore false as stated. -/
theorem c8_counterexample :
    list_transforms selfNamedMember = []
    ∧ selfNamedMember.map (fun p => p.2.isClass && !p.2.isAbstract
        && p.2.bases.contains "Transform") = [true] := by
  constructor
  · decide
  · decide

/-- Amended claim C8: the catalog's keys are exactly the qualified
names of the concrete member classes for which some base-class name in
the fixed set passes `is_subclass` — which also requires the member
name to differ from that base-class name; the key list is sorted and
duplicate-free (a class reachable under several aliases appears once,
keyed by its fully qualified name); each entry's alias list is sorted
and collects exactly the member names that reached the class; and the
`A(Transform)`, `B(MapTransform)`, `C(object)` example yields exactly
the records for `A` and `B`. -/
theorem c8_catalog_amended :
    (∀ (members : List (String × PyObj)) (bcs : List String) (cp : String),
        cp ∈ (get_class_of_subclass members bcs).map Prod.fst ↔
          ∃ p ∈ members, catalogHit bcs p = true ∧ qualName p.2 = cp)
    ∧ (∀ (members : List (String × PyObj)) (bcs : List String),
        List.Sorted strLeRel ((get_class_of_subclass members bcs).map Prod.fst)
        ∧ ((get_class_of_subclass members bcs).map Prod.fst).Nodup)
    ∧ (∀ (members : List (String × PyObj)) (bcs : List String) (e : String × TMeta),
        e ∈ get_class_of_subclass members bcs →
        List.Sorted strLeRel e.2.aliasNames
        ∧ e.2.aliasNames.Perm ((members.filter
            (fun p => catalogHit bcs p && (qualName p.2 == e.1))).map Prod.fst))
    ∧ list_transforms abcMembers = abcExpected := by
  have hkeys : ∀ (members : List (String × PyObj)) (bcs : List String),
      (get_class_of_subclass members bcs).map Prod.fst
        = sortStrings ((members.foldl (catalogStep bcs) []).map Prod.fst) := by
    intro members bcs
    simp only [get_class_of_subclass]
    apply filterMap_keys_of_lookup
    intro cp hcp
    exact (lookupMeta_isSome_iff _ _).mpr ((sortStrings_perm _).subset hcp)
  refine ⟨?_, ?_, ?_, ?_⟩
  · intro members bcs cp
    rw [hkeys]
    constructor
    · intro hcp
      have h2 := (sortStrings_perm _).subset hcp
      have h3 := (foldl_keys_mem bcs members [] cp).mp h2
      simpa using h3
    · intro hex
      exact ((sortStrings_perm _).mem_iff).mpr
        ((foldl_keys_mem bcs members [] cp).mpr (Or.inr hex))
  · intro members bcs
    constructor
    · rw [hkeys]
      exact sortStrings_sorted _
    · rw [hkeys]
      exact ((sortStrings_perm _).nodup_iff).mpr
        (foldl_keys_nodup bcs members [] (by simp))
  · intro members bcs e he
    have he2 : e ∈ (sortStrings ((members.foldl (catalogStep bcs) []).map
          Prod.fst)).filterMap
        (fun cp => (lookupMeta (members.foldl (catalogStep bcs) []) cp).map
          (fun m0 => (cp, { m0 with aliasNames := sortStrings m0.aliasNames }))) := by
      simpa [get_class_of_subclass] using he
    obtain ⟨m0, hl, hm⟩ := filterMap_entries_lookup _ _ _ e he2
    constructor
    · rw [hm]
      exact sortStrings_sorted _
    · rw [hm]
      have halias : aliasList (members.foldl (catalogStep bcs) []) e.1
          = m0.aliasNames := by
        unfold aliasList
        rw [hl]
      have hfold := foldl_alias bcs members [] e.1
      rw [halias] at hfold
      have hbase : aliasList [] e.1 = [] := rfl
      rw [hbase, List.nil_append] at hfold
      rw [hfold]
      exact sortStrings_perm _
  · decide

/-- Witness for the amended C8 at the concrete catalog entry for `A`
produced by the `A(Transform)`, `B(MapTransform)`, `C(object)` module:
its alias list is sorted and is a permutation of the member names that
reach `m.A`. -/
theorem c8_witness :
    List.Sorted strLeRel metaA.aliasNames
    ∧ metaA.aliasNames.Perm ((abcMembers.filter
        (fun p => catalogHit ["Transform", "MapTransform"] p
          && (qualName p.2 == "m.A"))).map Prod.fst) :=
  c8_catalog_amended.2.2.1 abcMembers ["Transform", "MapTransform"]
    ("m.A", metaA) (by decide)

end MonaiViz

namespace MonaiViz

/-- Witness for C4: editing row 0 in a context whose frontier is 1
(with a changed expression) resets the context, and running row 2 of
`c4tbl` from the empty state executes exactly the active rows 0 and 2. -/
theorem c4_witness :
    onEditTransformCache ctxB 5 0 "a" "b" = TransformCtx.init
    ∧ ([0, 2] : List Nat) = (List.range' 0 (2 + 1)).filter
        (fun r => ((c4tbl)[r]?.getD default).active) :=
  ⟨(c4_edit_before_frontier_invalidates tfW id id ctxB 5 0 "a" "b" c4tbl 2 0
      (by decide) (by decide)).1,
   (c4_edit_before_frontier_invalidates tfW id id ctxB 5 0 "a" "b" c4tbl 2 0
      (by decide) (by decide)).2 cRun (.one 2) [0, 2] none (by decide) (by decide)⟩

end MonaiViz
